import Mathlib

set_option maxRecDepth 16384

/-!
Shallow embedding of the retrieval pipeline of the portfolio repository:
the RAG pipeline (merge/rank/dedup/assemble/expand/search) from the
pipeline module and the cache-key logic of the embeddings service.
Scores are modelled as rationals; JS Map insertion order is modelled by
association lists that preserve insertion order.
-/

namespace RAG

/-- A retrievable content chunk, as in the pipeline's ContentChunk
interface (fields not read by the pipeline logic are omitted). -/
structure ContentChunk where
  id : String
  type : String
  title : Option String
  content : String
  keywords : Option String
  relevanceScore : ℚ
  source : String
  deriving Repr, DecidableEq

/-- Pipeline configuration, as in the RAGConfig interface. -/
structure RAGConfig where
  semanticWeight : ℚ
  keywordWeight : ℚ
  diversityWeight : ℚ
  maxContentLength : Nat
  chunkSize : Nat
  chunkOverlap : Nat
  relevanceThreshold : ℚ
  maxContextChunks : Nat
  enableQueryExpansion : Bool
  enableIntentDetection : Bool
  enableDeduplication : Bool
  cacheEnabled : Bool
  deriving Repr, DecidableEq

/-- The DEFAULT_CONFIG constant of the pipeline module. -/
def DEFAULT_CONFIG : RAGConfig :=
  { semanticWeight := 7/10
    keywordWeight := 3/10
    diversityWeight := 1/10
    maxContentLength := 4000
    chunkSize := 500
    chunkOverlap := 100
    relevanceThreshold := 6/10
    maxContextChunks := 10
    enableQueryExpansion := true
    enableIntentDetection := true
    enableDeduplication := true
    cacheEnabled := true }

/-- The merge key used by mergeAndRankResults: the template string
type_id. -/
def chunkKey (c : ContentChunk) : String := c.type ++ "_" ++ c.id

/-- JS Map.set on an insertion-ordered association list: an existing key
keeps its position and gets the new value; a fresh key is appended. -/
def mapSet {α : Type} (m : List (String × α)) (k : String) (v : α) :
    List (String × α) :=
  if (m.lookup k).isSome then
    m.map (fun p => if p.1 = k then (k, v) else p)
  else
    m ++ [(k, v)]

/-- One step of applyDiversityWeighting: running per-type counters; the
n-th repeat of a type (count n > 0 prior occurrences) is scaled by
(1 - diversityWeight * n * 0.1). -/
def diversityGo (cfg : RAGConfig) (typeCounts : List (String × Nat)) :
    List ContentChunk → List ContentChunk
  | [] => []
  | result :: rest =>
    let count := (typeCounts.lookup result.type).getD 0
    let typeCounts' := mapSet typeCounts result.type (count + 1)
    let result' :=
      if count > 0 then
        { result with
          relevanceScore :=
            result.relevanceScore *
              (1 - cfg.diversityWeight * (count : ℚ) * (1/10)) }
      else result
    result' :: diversityGo cfg typeCounts' rest

/-- applyDiversityWeighting of the pipeline. -/
def applyDiversityWeighting (cfg : RAGConfig) (results : List ContentChunk) :
    List ContentChunk :=
  diversityGo cfg [] results

/-- Stable descending insertion used to model the JS stable sort by
relevance score (comparator b.relevanceScore - a.relevanceScore). -/
def insertByScoreDesc (a : ContentChunk) : List ContentChunk → List ContentChunk
  | [] => [a]
  | b :: t =>
    if b.relevanceScore < a.relevanceScore then a :: b :: t
    else b :: insertByScoreDesc a t

/-- Stable sort by relevance score, descending (equal scores keep their
input order, as the JS engine's stable Array.sort does). -/
def sortByScoreDesc (l : List ContentChunk) : List ContentChunk :=
  l.foldl (fun acc a => insertByScoreDesc a acc) []

/-- The semantic half of the merge: insert the result under its key
with the semantically weighted score. -/
def mergeSemStep (cfg : RAGConfig) (m : List (String × ContentChunk))
    (result : ContentChunk) : List (String × ContentChunk) :=
  mapSet m (chunkKey result)
    { result with relevanceScore := result.relevanceScore * cfg.semanticWeight }

/-- The keyword half of the merge: when the key already exists, add the
weighted keyword score onto the existing entry and mark it hybrid,
otherwise insert a weighted-keyword-only entry. -/
def mergeKwStep (cfg : RAGConfig) (m : List (String × ContentChunk))
    (result : ContentChunk) : List (String × ContentChunk) :=
  match m.lookup (chunkKey result) with
  | some existing =>
    mapSet m (chunkKey result)
      { existing with
        relevanceScore :=
          existing.relevanceScore + result.relevanceScore * cfg.keywordWeight
        source := "hybrid" }
  | none =>
    m ++ [(chunkKey result,
      { result with
        relevanceScore := result.relevanceScore * cfg.keywordWeight })]

/-- mergeAndRankResults of the pipeline: weighted insertion of semantic
results, additive merge of keyword results under the same key (marking
the entry hybrid), optional diversity weighting, then a descending sort. -/
def mergeAndRankResults (cfg : RAGConfig)
    (semanticResults keywordResults : List ContentChunk) : List ContentChunk :=
  let afterSem := semanticResults.foldl (mergeSemStep cfg) []
  let combined := keywordResults.foldl (mergeKwStep cfg) afterSem
  let results := combined.map Prod.snd
  let results :=
    if cfg.diversityWeight > 0 then applyDiversityWeighting cfg results
    else results
  sortByScoreDesc results

/-- Collapse every run of whitespace to a single space (the JS
replace of whitespace-runs by one space), tracking whether the previous
character was whitespace. -/
def collapseWsGo (prevWs : Bool) : List Char → List Char
  | [] => []
  | c :: rest =>
    if c.isWhitespace then
      if prevWs then collapseWsGo true rest
      else ' ' :: collapseWsGo true rest
    else c :: collapseWsGo false rest

/-- String form of whitespace collapsing. -/
def collapseWs (s : String) : String :=
  String.mk (collapseWsGo false s.toList)

/-- The content normalization used by deduplicateResults: lower-case,
collapse whitespace, trim, take the first 200 characters. -/
def normalizeForDedup (s : String) : String :=
  ((collapseWs s.toLower).trim).take 200

/-- The loop of deduplicateResults, with the set of already seen
normalized bodies as an accumulator. -/
def dedupGo (seen : List String) : List ContentChunk → List ContentChunk
  | [] => []
  | result :: rest =>
    let n := normalizeForDedup result.content
    if seen.contains n then dedupGo seen rest
    else result :: dedupGo (n :: seen) rest

/-- deduplicateResults of the pipeline. -/
def deduplicateResults (results : List ContentChunk) : List ContentChunk :=
  dedupGo [] results

/-- The deduplication behaviour exactly as the spec phrases it: a result
is dropped when some earlier result of the input list has an identical
normalized body, and kept otherwise. Stated over the list of all earlier
results rather than over a seen-set, for comparison with
deduplicateResults. -/
def dedupKeepFirstGo (earlier : List ContentChunk) :
    List ContentChunk → List ContentChunk
  | [] => []
  | result :: rest =>
    if earlier.any
        (fun p => normalizeForDedup p.content == normalizeForDedup result.content)
    then dedupKeepFirstGo (earlier ++ [result]) rest
    else result :: dedupKeepFirstGo (earlier ++ [result]) rest

/-- Spec-side deduplication: keep exactly the first occurrence of every
normalized body, in list order. -/
def dedupKeepFirst (results : List ContentChunk) : List ContentChunk :=
  dedupKeepFirstGo [] results

/-- estimateTokens of the pipeline: ceil(length / 4). -/
def estimateTokens (text : String) : Nat := (text.length + 3) / 4

/-- Total estimated token cost of a chunk list. -/
def sumTokens (l : List ContentChunk) : Nat :=
  (l.map (fun c => estimateTokens c.content)).sum

/-- The state threaded through the assembleContext loop. -/
structure AssembleState where
  totalTokens : Nat
  assembledContent : String
  sources : List String
  usedChunks : List ContentChunk
  truncated : Bool
  deriving Repr, DecidableEq

/-- One successful inclusion step of the assembleContext loop: count
the chunk's estimated tokens, append the separator and the upper-cased
kind label with the body, prepend the title (when truthy) to the WHOLE
accumulated string, record the source, and append the chunk to the
included list. -/
def assembleStep (cfg : RAGConfig) (st : AssembleState)
    (chunk : ContentChunk) : AssembleState :=
  let chunkTokens := estimateTokens chunk.content
  let content1 :=
    if st.assembledContent ≠ "" then st.assembledContent ++ "\n\n"
    else st.assembledContent
  let content2 := content1 ++ chunk.type.toUpper ++ ": " ++ chunk.content
  let content3 :=
    match chunk.title with
    | some t => if t ≠ "" then t ++ "\n" ++ content2 else content2
    | none => content2
  let sources' :=
    if st.sources.contains chunk.source then st.sources
    else st.sources ++ [chunk.source]
  { totalTokens := st.totalTokens + chunkTokens
    assembledContent := content3
    sources := sources'
    usedChunks := st.usedChunks ++ [chunk]
    truncated := st.truncated }

/-- The loop of assembleContext over the score-sorted chunks: stop
before a chunk that would exceed the token budget; otherwise include it
via assembleStep and stop once maxContextChunks chunks are included. -/
def assembleGo (cfg : RAGConfig) (st : AssembleState) :
    List ContentChunk → AssembleState
  | [] => st
  | chunk :: rest =>
    if st.totalTokens + estimateTokens chunk.content > cfg.maxContentLength then
      { st with truncated := true }
    else
      let st' := assembleStep cfg st chunk
      if st'.usedChunks.length ≥ cfg.maxContextChunks then
        { st' with truncated := true }
      else assembleGo cfg st' rest

/-- The result record of assembleContext. -/
structure ContextAssembly where
  content : String
  sources : List String
  relevanceScore : ℚ
  chunks : List ContentChunk
  totalTokens : Nat
  truncated : Bool
  deriving Repr, DecidableEq

/-- assembleContext of the pipeline: defensive re-sort by score
descending, greedy packing, and the mean relevance of included chunks. -/
def assembleContext (cfg : RAGConfig) (chunks : List ContentChunk) :
    ContextAssembly :=
  let sortedChunks := sortByScoreDesc chunks
  let st :=
    assembleGo cfg
      { totalTokens := 0
        assembledContent := ""
        sources := []
        usedChunks := []
        truncated := false }
      sortedChunks
  let relevanceScore : ℚ :=
    if st.usedChunks.length > 0 then
      (st.usedChunks.map ContentChunk.relevanceScore).sum /
        (st.usedChunks.length : ℚ)
    else 0
  { content := st.assembledContent
    sources := st.sources
    relevanceScore := relevanceScore
    chunks := st.usedChunks
    totalTokens := st.totalTokens
    truncated := st.truncated }

/-- A word character in the sense of the regex \w class. -/
def isWordChar (c : Char) : Bool := c.isAlphanum || c = '_'

/-- Case-insensitive character comparison, as the regex i flag folds
case. -/
def charEqCI (a b : Char) : Bool := a.toLower == b.toLower

/-- Try to strip a case-insensitive occurrence of the pattern from the
front of the text, returning the remainder on success. -/
def dropMatchCI : List Char → List Char → Option (List Char)
  | [], l => some l
  | _ :: _, [] => none
  | p :: ps, c :: cs => if charEqCI p c then dropMatchCI ps cs else none

/-- One global scan of the whole-word case-insensitive replacement
regex: a match must start after a non-word character (or at the start),
must end before a non-word character (or at the end), and scanning
resumes after the match without rescanning the replacement. The fuel
only bounds the scanned length (the remainder of a successful match is
shorter than what it matched), keeping the recursion structural. -/
def replaceWordGo (word syn : List Char) : Nat → Bool → List Char → List Char
  | 0, _, _ => []
  | _ + 1, _, [] => []
  | fuel + 1, prevW, c :: cs =>
    if prevW then c :: replaceWordGo word syn fuel (isWordChar c) cs
    else
      match dropMatchCI word (c :: cs) with
      | some rest =>
        if ((match rest with
             | [] => true
             | d :: _ => !isWordChar d) && !word.isEmpty) then
          syn ++
            replaceWordGo word syn fuel
              (match word.reverse with
               | lc :: _ => isWordChar lc
               | [] => true) rest
        else c :: replaceWordGo word syn fuel (isWordChar c) cs
      | none => c :: replaceWordGo word syn fuel (isWordChar c) cs

/-- The whole-word, case-insensitive, global replacement used by
expandQuery (the regex built from a synonym-table word). -/
def wholeWordReplaceCI (query word syn : String) : String :=
  String.mk
    (replaceWordGo word.toList syn.toList query.toList.length false query.toList)

/-- The result record of expandQuery. -/
structure SynonymExpansion where
  originalQuery : String
  expandedQueries : List String
  synonymGroups : List (String × List String)
  deriving Repr, DecidableEq

/-- The SYNONYM_MAPPINGS table of the pipeline module. -/
def SYNONYM_MAPPINGS : List (String × List String) :=
  [("experience", ["work", "job", "career", "employment", "professional background"]),
   ("skills", ["abilities", "expertise", "competencies", "technologies", "proficiencies"]),
   ("projects", ["work", "portfolio", "applications", "systems", "developments"]),
   ("education", ["academic", "degree", "studies", "qualification", "learning"]),
   ("contact", ["reach", "connect", "get in touch", "communication", "details"]),
   ("build", ["develop", "create", "construct", "implement", "design"]),
   ("technology", ["tech", "tool", "framework", "platform", "software"])]

/-- One synonym of a matched word: substitute it whole-word into the
original query and keep the expansion unless it is a duplicate. -/
def expandSynStep (query word : String) (es : List String)
    (synonym : String) : List String :=
  let expandedQuery := wholeWordReplaceCI query word synonym
  if es.contains expandedQuery then es else es ++ [expandedQuery]

/-- One whitespace-token of the lower-cased query: when it is a table
key, fold its synonyms into the expansions and record the group. -/
def expandWordStep (table : List (String × List String)) (query : String)
    (acc : List String × List (String × List String)) (word : String) :
    List String × List (String × List String) :=
  match table.lookup word with
  | some synonyms =>
    (synonyms.foldl (expandSynStep query word) acc.1,
      acc.2 ++ [(word, synonyms)])
  | none => acc

/-- expandQuery over an explicit synonym table: for every
whitespace-token of the lower-cased query that is a table key, one
whole-word substitution per synonym, into the original query, holding
the original query first and skipping duplicates. -/
def expandQueryWith (table : List (String × List String)) (query : String) :
    SynonymExpansion :=
  let words := (query.toLower).split (·.isWhitespace)
  let folded := words.foldl (expandWordStep table query) ([query], [])
  { originalQuery := query
    expandedQueries := folded.1
    synonymGroups := folded.2 }

/-- expandQuery of the pipeline, reading the fixed SYNONYM_MAPPINGS. -/
def expandQuery (query : String) : SynonymExpansion :=
  expandQueryWith SYNONYM_MAPPINGS query

/-- The stop-word set of extractKeywords. -/
def stopWords : List String :=
  ["the", "a", "an", "and", "or", "but", "in", "on", "at", "to", "for", "of",
   "with", "by", "is", "are", "was", "were", "be", "been", "have", "has",
   "had", "do", "does", "did", "will", "would", "could", "should", "may",
   "might", "can", "about", "what", "how"]

/-- Keep the first occurrence of every word, as the indexOf-based filter
of extractKeywords does. -/
def dedupFirstGo (seen : List String) : List String → List String
  | [] => []
  | w :: rest =>
    if seen.contains w then dedupFirstGo seen rest
    else w :: dedupFirstGo (seen ++ [w]) rest

/-- extractKeywords of the pipeline: lower-case, replace non-word
characters by spaces, split on whitespace, keep words longer than two
characters that are not stop words, and deduplicate keeping first
occurrences. -/
def extractKeywords (text : String) : List String :=
  let cleaned :=
    String.mk
      (text.toLower.toList.map
        (fun c => if isWordChar c || c.isWhitespace then c else ' '))
  let words := cleaned.split (·.isWhitespace)
  dedupFirstGo [] (words.filter (fun w => w.length > 2 && !stopWords.contains w))

/-- Substring test over character lists (the JS String.includes). -/
def listHasSub (p : List Char) : List Char → Bool
  | [] => p.isEmpty
  | c :: cs => p.isPrefixOf (c :: cs) || listHasSub p cs

/-- The JS String.includes on strings. -/
def strContains (s pattern : String) : Bool :=
  listHasSub pattern.toList s.toList

/-- calculateKeywordRelevance of the pipeline: per query keyword award
1.0 for an exact content-keyword match, else 0.7 for a stored-keyword
match, else 0.5 for a raw substring hit, else 0; divide by the number of
query keywords. -/
def calculateKeywordRelevance (query content : String)
    (keywords : Option String) : ℚ :=
  let queryKeywords := extractKeywords query
  let contentKeywords := extractKeywords content.toLower
  let keywordList :=
    match keywords with
    | some k => if k = "" then [] else extractKeywords k.toLower
    | none => []
  let matches' :=
    queryKeywords.foldl
      (fun acc keyword =>
        if contentKeywords.contains keyword then acc + 1
        else if keywordList.contains keyword then acc + 7/10
        else if strContains content.toLower keyword then acc + 1/2
        else acc)
      (0 : ℚ)
  if queryKeywords.length > 0 then matches' / (queryKeywords.length : ℚ) else 0

/-- preprocessQuery of the pipeline: trim, lower-case, replace non-word
non-space characters by spaces, collapse whitespace. -/
def preprocessQuery (query : String) : String :=
  collapseWs
    (String.mk
      ((query.trim.toLower).toList.map
        (fun c => if isWordChar c || c.isWhitespace then c else ' ')))

/-- The INTENT_PATTERNS table of the pipeline module. -/
def INTENT_PATTERNS : List (String × List String) :=
  [("greeting", ["hello", "hi", "hey", "good morning", "good afternoon", "good evening"]),
   ("contact", ["contact", "email", "phone", "reach", "connect", "get in touch"]),
   ("experience", ["experience", "work", "job", "career", "employment", "professional"]),
   ("projects", ["project", "build", "develop", "create", "portfolio", "work"]),
   ("skills", ["skill", "technology", "programming", "language", "tool", "expertise"]),
   ("education", ["education", "degree", "study", "university", "college", "academic"]),
   ("personal", ["about", "who", "person", "background", "biography", "profile"]),
   ("technical", ["technical", "code", "implementation", "architecture", "system"]),
   ("availability", ["available", "hire", "opportunity", "job", "position", "freelance"])]

/-- Stable descending insertion for confidence-scored labels, modelling
the JS stable sort with comparator b.confidence - a.confidence. -/
def insertByConfDesc (a : String × ℚ) : List (String × ℚ) → List (String × ℚ)
  | [] => [a]
  | b :: t => if b.2 < a.2 then a :: b :: t else b :: insertByConfDesc a t

/-- Stable descending sort by confidence. -/
def sortByConfDesc (l : List (String × ℚ)) : List (String × ℚ) :=
  l.foldl (fun acc a => insertByConfDesc a acc) []

/-- extractEntities of the pipeline: fixed technology and company
vocabularies matched against the whitespace-tokens of the lower-cased
query. -/
def extractEntities (query : String) : List (String × String × ℚ) :=
  let words := (query.toLower).split (·.isWhitespace)
  let techTerms :=
    ["python", "javascript", "react", "node.js", "typescript", "html", "css", "sql"]
  let companies := ["consuy", "google", "microsoft", "amazon", "meta"]
  (techTerms.filter (fun term => words.contains term)).map
      (fun term => (term, "technology", (9/10 : ℚ))) ++
    (companies.filter (fun company => words.contains company)).map
      (fun company => (company, "company", (8/10 : ℚ)))

/-- The result record of detectIntent. -/
structure QueryIntent where
  intent : String
  confidence : ℚ
  entities : List (String × String × ℚ)
  keywords : List String
  deriving Repr, DecidableEq

/-- detectIntent of the pipeline: per intent count the trigger phrases
contained in the query, keep intents with a positive count at
confidence matches/patterns, sort by confidence descending (stable),
and default to general at confidence 0.5. -/
def detectIntent (query : String) : QueryIntent :=
  let intents :=
    INTENT_PATTERNS.foldl
      (fun (acc : List (String × ℚ)) p =>
        let matches' := (p.2.filter (fun pat => strContains query pat)).length
        if matches' > 0 then acc ++ [(p.1, (matches' : ℚ) / (p.2.length : ℚ))]
        else acc)
      []
  let sorted := sortByConfDesc intents
  let top := sorted.head?.getD ("general", 1/2)
  { intent := top.1
    confidence := top.2
    entities := extractEntities query
    keywords := extractKeywords query }

/-- A row of the vector-similarity query over portfolio content. -/
structure SimilarRow where
  id : String
  type : String
  title : Option String
  content : String
  similarity : ℚ
  deriving Repr, DecidableEq

/-- A row of the vector-similarity query over prior conversations. -/
structure ConversationRow where
  id : String
  user_message : String
  bot_response : String
  similarity : ℚ
  deriving Repr, DecidableEq

/-- A row of the keyword (pattern) queries. -/
structure KeywordRow where
  id : String
  type : String
  title : Option String
  content : String
  keywords : Option String
  deriving Repr, DecidableEq

/-- The validated SearchQuery (after the zod schema applied defaults and
bounds). -/
structure SearchQuery where
  query : String
  contentTypes : List String
  maxResults : Nat
  similarityThreshold : ℚ
  includeKeywordSearch : Bool
  includeSemanticSearch : Bool
  contextTypes : List String
  deriving Repr, DecidableEq

/-- The SearchResult record of the pipeline; wall-clock searchTime is
abstracted to 0. -/
structure SearchResult where
  chunks : List ContentChunk
  totalResults : Nat
  searchTime : Nat
  cacheHit : Bool
  semanticResults : Nat
  keywordResults : Nat
  mergedResults : Nat
  queryIntent : Option String
  expandedQueries : Option (List String)
  deriving Repr, DecidableEq

/-- The external collaborators of the search call: the embedding
service, the two vector-store functions, the two keyword queries, and
the result cache. Failures of the fallible collaborators are explicit
Except values; the cache read fails soft and is a plain Option keyed by
the request. -/
structure Collaborators where
  generateEmbedding : String → Except String (List ℚ)
  findSimilarContent :
    List ℚ → Option String → ℚ → Nat → Except String (List SimilarRow)
  findSimilarConversations :
    List ℚ → ℚ → Nat → Except String (List ConversationRow)
  keywordContentQuery :
    String → List String → Nat → Except String (List KeywordRow)
  keywordSimpleQuery : String → Nat → Except String (List KeywordRow)
  getCachedResult : SearchQuery → Option SearchResult

/-- The JS fallback searchQuery.similarityThreshold || 0.7 (0 is falsy). -/
def thresholdOf (sq : SearchQuery) : ℚ :=
  if sq.similarityThreshold = 0 then 7/10 else sq.similarityThreshold

/-- The JS fallback searchQuery.maxResults || 10 (0 is falsy). -/
def maxResultsOf (sq : SearchQuery) : Nat :=
  if sq.maxResults = 0 then 10 else sq.maxResults

/-- Conversion of a similarity row to a semantic ContentChunk. -/
def semRowChunk (row : SimilarRow) : ContentChunk :=
  { id := row.id
    type := row.type
    title := row.title
    content := row.content
    keywords := none
    relevanceScore := row.similarity
    source := "semantic" }

/-- Conversion of a conversation row to a conversation ContentChunk. -/
def convRowChunk (row : ConversationRow) : ContentChunk :=
  { id := "conv_" ++ row.id
    type := "conversation"
    title := none
    content := row.user_message ++ " " ++ row.bot_response
    keywords := none
    relevanceScore := row.similarity
    source := "conversation" }

/-- One query variant of performSemanticSearch: embed the variant, run
the similarity query, optionally the conversation side-query; any
failure is caught for this variant, keeping whatever rows were already
converted before the failure. -/
def performSemanticSearchVariant (collab : Collaborators) (sq : SearchQuery)
    (query : String) : List ContentChunk :=
  match collab.generateEmbedding query with
  | .error _ => []
  | .ok emb =>
    match collab.findSimilarContent emb sq.contentTypes.head? (thresholdOf sq)
        (maxResultsOf sq) with
    | .error _ => []
    | .ok rows =>
      let main := rows.map semRowChunk
      if sq.contextTypes.contains "conversation" then
        match collab.findSimilarConversations emb (thresholdOf sq)
            (min (maxResultsOf sq) 5) with
        | .error _ => main
        | .ok convRows => main ++ convRows.map convRowChunk
      else main

/-- performSemanticSearch of the pipeline: the variants' results are
accumulated; a failed variant contributes nothing but does not abort
the rest. -/
def performSemanticSearch (collab : Collaborators) (sq : SearchQuery)
    (queries : List String) : List ContentChunk :=
  (queries.map (performSemanticSearchVariant collab sq)).flatten

/-- One query variant of performKeywordSearch, threading the
accumulated results (the fallback to the simple collection fires only
while the running total is below the requested limit). -/
def performKeywordSearchVariant (collab : Collaborators) (sq : SearchQuery)
    (acc : List ContentChunk) (query : String) : List ContentChunk :=
  let keywords := extractKeywords query
  let keywordQuery :=
    String.intercalate "|" (keywords.map (fun kw => "%" ++ kw.toLower ++ "%"))
  match collab.keywordContentQuery keywordQuery sq.contentTypes
      (maxResultsOf sq) with
  | .error _ => acc
  | .ok rows =>
    let acc1 :=
      acc ++ rows.map (fun row =>
        { id := row.id
          type := row.type
          title := row.title
          content := row.content
          keywords := row.keywords
          relevanceScore := calculateKeywordRelevance query row.content row.keywords
          source := "keyword" })
    if acc1.length < maxResultsOf sq then
      match collab.keywordSimpleQuery keywordQuery
          (max 5 (maxResultsOf sq - acc1.length)) with
      | .error _ => acc1
      | .ok simpleRows =>
        acc1 ++ simpleRows.map (fun row =>
          { id := "simple_" ++ row.id
            type := row.type
            title := none
            content := row.content
            keywords := row.keywords
            relevanceScore := calculateKeywordRelevance query row.content row.keywords
            source := "keyword_simple" })
    else acc1

/-- performKeywordSearch of the pipeline. -/
def performKeywordSearch (collab : Collaborators) (sq : SearchQuery)
    (queries : List String) : List ContentChunk :=
  queries.foldl (performKeywordSearchVariant collab sq) []

/-- The search method of the pipeline: cache check, preprocessing,
optional intent detection and query expansion, the two retrieval paths,
merge and rank, optional deduplication, relevance threshold, and the
result cap. -/
def search (cfg : RAGConfig) (collab : Collaborators)
    (searchQuery : SearchQuery) : SearchResult :=
  match (if cfg.cacheEnabled then collab.getCachedResult searchQuery else none) with
  | some cached => { cached with cacheHit := true }
  | none =>
    let preprocessedQuery := preprocessQuery searchQuery.query
    let queryIntent :=
      if cfg.enableIntentDetection then some (detectIntent preprocessedQuery).intent
      else none
    let expandedQueries :=
      if cfg.enableQueryExpansion then (expandQuery preprocessedQuery).expandedQueries
      else [preprocessedQuery]
    let semanticResults :=
      if searchQuery.includeSemanticSearch then
        performSemanticSearch collab searchQuery expandedQueries
      else []
    let keywordResults :=
      if searchQuery.includeKeywordSearch then
        performKeywordSearch collab searchQuery expandedQueries
      else []
    let mergedResults := mergeAndRankResults cfg semanticResults keywordResults
    let finalResults :=
      if cfg.enableDeduplication then deduplicateResults mergedResults
      else mergedResults
    let filteredResults :=
      finalResults.filter (fun c => c.relevanceScore ≥ cfg.relevanceThreshold)
    let limitedResults := filteredResults.take searchQuery.maxResults
    { chunks := limitedResults
      totalResults := filteredResults.length
      searchTime := 0
      cacheHit := false
      semanticResults := semanticResults.length
      keywordResults := keywordResults.length
      mergedResults := mergedResults.length
      queryIntent := queryIntent
      expandedQueries :=
        if expandedQueries.length > 1 then some expandedQueries else none }

end RAG

namespace EmbeddingsService

/-- Reinterpret an integer as a signed 32-bit value, as the JS bitwise
operations do. -/
def toInt32 (n : Int) : Int :=
  let u := n % 4294967296
  if u < 2147483648 then u else u - 4294967296

/-- One character step of hashText: hash = ((hash << 5) - hash) + code,
then hash = hash & hash, on 32-bit signed integers. -/
def hashStep (hash : Int) (c : Nat) : Int :=
  toInt32 (toInt32 (hash * 32) - hash + (c : Int))

/-- The character codes of a string (UTF-16 units coincide with code
points on the basic plane). -/
def charCodes (s : String) : List Nat := s.toList.map Char.toNat

/-- A base-36 digit, 0-9 then a-z, as Number.prototype.toString(36)
produces. -/
def base36digit (d : Nat) : Char :=
  if d < 10 then Char.ofNat ('0'.toNat + d) else Char.ofNat ('a'.toNat + d - 10)

/-- Base-36 digits of a number; the fuel only bounds the digit count so
the recursion is structural. -/
def toBase36Go : Nat → Nat → List Char
  | 0, _ => []
  | fuel + 1, n =>
    if n < 36 then [base36digit n]
    else toBase36Go fuel (n / 36) ++ [base36digit (n % 36)]

/-- Number.prototype.toString(36) for the absolute value of a 32-bit
hash: 32 digits of fuel are ample, since such a value has at most seven
base-36 digits. -/
def toBase36 (n : Nat) : String := String.mk (toBase36Go 32 n)

/-- hashText of the embeddings service: the 32-bit rolling hash of the
character codes, absolute value, rendered in base 36. -/
def hashText (text : String) : String :=
  toBase36 ((charCodes text).foldl hashStep 0).natAbs

/-- getCacheKey of the embeddings service: the EMBEDDING cache prefix
followed by the hash of text concatenated with the model identifier.
The text is the raw input; preprocessing happens only after a cache
miss. -/
def getCacheKey (text model : String) : String :=
  "embedding:" ++ hashText (text ++ model)

/-- The punctuation allowlist kept by preprocessText. -/
def isAllowedPunct (c : Char) : Bool :=
  c ∈ ['.', ',', '!', '?', ';', ':', '(', ')', '-']

/-- preprocessText of the embeddings service: trim, collapse
whitespace, strip characters outside the word/whitespace/punctuation
allowlist, lower-case. -/
def preprocessText (text : String) : String :=
  (String.mk
    ((RAG.collapseWs text.trim).toList.filter
      (fun c => RAG.isWordChar c || c.isWhitespace || isAllowedPunct c))).toLower

end EmbeddingsService

namespace RAG

/-- A semantic hit with similarity 0.8 (used as a concrete input). -/
def semHit : ContentChunk :=
  { id := "1", type := "skills", title := none, content := "semantic body",
    keywords := none, relevanceScore := 8/10, source := "semantic" }

/-- A keyword hit with score 0.6 under the same key as semHit. -/
def kwHit : ContentChunk :=
  { id := "1", type := "skills", title := some "T", content := "keyword body",
    keywords := some "tags", relevanceScore := 6/10, source := "keyword" }

/-- Two semantic results with distinct keys but the same type. -/
def semSkillsA : ContentChunk :=
  { id := "1", type := "skills", title := none, content := "body A",
    keywords := none, relevanceScore := 1, source := "semantic" }

/-- Second semantic result of the same type, distinct id. -/
def semSkillsB : ContentChunk :=
  { id := "2", type := "skills", title := none, content := "body B",
    keywords := none, relevanceScore := 1, source := "semantic" }

/-- A semantic result of type a (disjoint-merge witness input). -/
def semTypeA : ContentChunk :=
  { id := "1", type := "a", title := none, content := "alpha body",
    keywords := none, relevanceScore := 9/10, source := "semantic" }

/-- A keyword result of type b (disjoint-merge witness input). -/
def kwTypeB : ContentChunk :=
  { id := "2", type := "b", title := none, content := "beta body",
    keywords := none, relevanceScore := 1/2, source := "keyword" }

/-- Two keyword results sharing one key (accumulation inputs). -/
def kwRepeatX : ContentChunk :=
  { id := "9", type := "project", title := none, content := "repeat body",
    keywords := none, relevanceScore := 1/2, source := "keyword" }

/-- Second keyword result with the key of kwRepeatX. -/
def kwRepeatY : ContentChunk :=
  { id := "9", type := "project", title := none, content := "repeat body 2",
    keywords := none, relevanceScore := 3/4, source := "keyword" }

/-- A chunk of given id, type, content length and score, for the
assembler examples. -/
def mkChunk (i : Nat) (ty : String) (len : Nat) (score : ℚ) : ContentChunk :=
  { id := toString i, type := ty, title := none,
    content := String.mk (List.replicate len 'a'),
    keywords := none, relevanceScore := score, source := "semantic" }

/-- Config with token budget 100 (truncation-boundary example). -/
def cfgBudget100 : RAGConfig := { DEFAULT_CONFIG with maxContentLength := 100 }

/-- Chunks with token costs 30, 30, 30, 50 in score order. -/
def chunksBudget : List ContentChunk :=
  [mkChunk 1 "t1" 120 4, mkChunk 2 "t2" 120 3, mkChunk 3 "t3" 120 2,
   mkChunk 4 "t4" 200 1]

/-- Config with chunk-count cap 2 (chunk-count-cap example). -/
def cfgCap2 : RAGConfig := { DEFAULT_CONFIG with maxContextChunks := 2 }

/-- Three small chunks, all within the token budget. -/
def chunksCap3 : List ContentChunk :=
  [mkChunk 1 "t1" 4 4, mkChunk 2 "t2" 4 3, mkChunk 3 "t3" 4 2]

/-- Exactly two small chunks (count-cap truncation flag input). -/
def chunksCap2 : List ContentChunk :=
  [mkChunk 1 "t1" 4 4, mkChunk 2 "t2" 4 3]

/-- An untitled chunk ranked first (title-placement input). -/
def chunkAlpha : ContentChunk :=
  { id := "a", type := "experience", title := none, content := "alpha",
    keywords := none, relevanceScore := 1, source := "semantic" }

/-- A titled chunk ranked second (title-placement input). -/
def chunkBeta : ContentChunk :=
  { id := "b", type := "project", title := some "My Project", content := "beta",
    keywords := none, relevanceScore := 1/2, source := "semantic" }

/-- The synonym table of the query-expansion example. -/
def exTable : List (String × List String) :=
  [("skills", ["abilities", "expertise"])]

/-- Collaborators whose embedding call always fails while the keyword
query succeeds with one row; the cache misses. -/
def collabEmbedFail : Collaborators :=
  { generateEmbedding := fun _ => .error "embedding failure"
    findSimilarContent := fun _ _ _ _ => .ok []
    findSimilarConversations := fun _ _ _ => .ok []
    keywordContentQuery := fun _ _ _ =>
      .ok [{ id := "7", type := "greeting", title := none,
             content := "hello world", keywords := none }]
    keywordSimpleQuery := fun _ _ => .ok []
    getCachedResult := fun _ => none }

/-- A validated query with the schema defaults, on a query word with no
synonyms. -/
def sqHello : SearchQuery :=
  { query := "hello"
    contentTypes := []
    maxResults := 10
    similarityThreshold := 7/10
    includeKeywordSearch := true
    includeSemanticSearch := true
    contextTypes := ["content", "conversation"] }

end RAG

namespace RAG

/-- A lookup in the empty association list misses. -/
theorem lookup_nil {α : Type} (k : String) :
    (([] : List (String × α)).lookup k) = none := rfl

/-- mapSet on a fresh key appends the binding. -/
theorem mapSet_of_lookup_none {α : Type} (m : List (String × α)) (k : String)
    (v : α) (h : m.lookup k = none) : mapSet m k v = m ++ [(k, v)] := by
  simp [mapSet, h]

/-- Diversity weighting of a single result never changes it: the first
occurrence of its type carries no penalty. -/
theorem diversityGo_singleton (cfg : RAGConfig) (tc : List (String × Nat))
    (c : ContentChunk) (h : tc.lookup c.type = none) :
    diversityGo cfg tc [c] = [c] := by
  simp [diversityGo, h]

/-- Claim C1: merging exactly one semantic result and one keyword result
that share a key yields one fused entry whose relevance score is the
semantic score times the semantic weight plus the keyword score times
the keyword weight, with source hybrid. -/
theorem mergeAndRankResults_hybrid_single (cfg : RAGConfig)
    (s k : ContentChunk) (h : chunkKey s = chunkKey k) :
    mergeAndRankResults cfg [s] [k] =
      [{ s with
          relevanceScore :=
            s.relevanceScore * cfg.semanticWeight +
              k.relevanceScore * cfg.keywordWeight
          source := "hybrid" }] := by
  simp only [mergeAndRankResults, List.foldl, mergeSemStep, mergeKwStep]
  rw [mapSet_of_lookup_none _ _ _ (lookup_nil _)]
  simp only [List.nil_append, ← h, List.lookup, beq_self_eq_true, mapSet,
    Option.isSome_some, if_true, List.map, ite_true]
  split
  · rw [applyDiversityWeighting, diversityGo_singleton _ _ _ (lookup_nil _)]
    rfl
  · rfl

/-- Witness for C1 at the spec's numbers: semantic 0.8 and keyword 0.6
under the default weights 0.7/0.3 fuse to 0.74 with source hybrid. -/
theorem mergeAndRankResults_hybrid_single_witness :
    chunkKey semHit = chunkKey kwHit ∧
    mergeAndRankResults DEFAULT_CONFIG [semHit] [kwHit] =
      [{ semHit with relevanceScore := 74/100, source := "hybrid" }] := by
  refine ⟨rfl, ?_⟩
  rw [mergeAndRankResults_hybrid_single DEFAULT_CONFIG semHit kwHit rfl]
  norm_num [semHit, kwHit, DEFAULT_CONFIG]

/-- Claim C10: two keyword results under one key, with no semantic
results at all, collapse to a single entry whose weighted scores are
added and whose source is hybrid. -/
theorem mergeAndRankResults_keyword_accumulation (cfg : RAGConfig)
    (k1 k2 : ContentChunk) (h : chunkKey k1 = chunkKey k2) :
    mergeAndRankResults cfg [] [k1, k2] =
      [{ k1 with
          relevanceScore :=
            k1.relevanceScore * cfg.keywordWeight +
              k2.relevanceScore * cfg.keywordWeight
          source := "hybrid" }] := by
  simp only [mergeAndRankResults, List.foldl, mergeKwStep, lookup_nil]
  simp only [List.nil_append, ← h, List.lookup, beq_self_eq_true, mapSet,
    Option.isSome_some, if_true, List.map, ite_true]
  split
  · rw [applyDiversityWeighting, diversityGo_singleton _ _ _ (lookup_nil _)]
    rfl
  · rfl

/-- Witness for C10: a chunk never produced by the semantic path is
reported with source hybrid, accumulating both keyword scores. -/
theorem mergeAndRankResults_keyword_accumulation_witness :
    chunkKey kwRepeatX = chunkKey kwRepeatY ∧
    mergeAndRankResults DEFAULT_CONFIG [] [kwRepeatX, kwRepeatY] =
      [{ kwRepeatX with relevanceScore := 3/8, source := "hybrid" }] := by
  refine ⟨rfl, ?_⟩
  rw [mergeAndRankResults_keyword_accumulation DEFAULT_CONFIG kwRepeatX kwRepeatY rfl]
  norm_num [kwRepeatX, kwRepeatY, DEFAULT_CONFIG]

end RAG

namespace RAG

/-- The seen-set loop of deduplicateResults agrees with the spec-side
first-occurrence filter whenever the seen set holds exactly the
normalized bodies of the earlier results. -/
theorem dedupGo_eq_keepFirstGo :
    ∀ (l : List ContentChunk) (seen : List String) (earlier : List ContentChunk),
      (∀ s : String,
        seen.contains s =
          earlier.any (fun p => normalizeForDedup p.content == s)) →
      dedupGo seen l = dedupKeepFirstGo earlier l
  | [], _, _, _ => rfl
  | r :: rest, seen, earlier, hInv => by
    simp only [dedupGo, dedupKeepFirstGo]
    rw [← hInv (normalizeForDedup r.content)]
    by_cases hc : seen.contains (normalizeForDedup r.content) = true
    · rw [if_pos hc, if_pos hc]
      refine dedupGo_eq_keepFirstGo rest seen (earlier ++ [r]) ?_
      intro s
      by_cases hbeq : (normalizeForDedup r.content == s) = true
      · have hs : normalizeForDedup r.content = s := eq_of_beq hbeq
        have hmem : normalizeForDedup r.content ∈ seen := by simpa using hc
        simp [List.any_append, hbeq, ← hs, hmem]
      · simp only [List.any_append, List.any_cons, List.any_nil,
          Bool.or_false, hInv s]
        simp [Bool.eq_false_iff.mpr hbeq]
    · rw [if_neg hc, if_neg hc]
      refine congrArg (r :: ·)
        (dedupGo_eq_keepFirstGo rest (normalizeForDedup r.content :: seen)
          (earlier ++ [r]) ?_)
      intro s
      by_cases hbeq : (normalizeForDedup r.content == s) = true
      · have hs : normalizeForDedup r.content = s := eq_of_beq hbeq
        simp [List.any_append, hbeq, ← hs]
      · simp only [List.contains_cons, List.any_append, List.any_cons,
          List.any_nil, Bool.or_false, hInv s]
        have h1 : (s == normalizeForDedup r.content) = false := by
          apply Bool.eq_false_iff.mpr
          intro ht
          exact hbeq (beq_iff_eq.mpr (beq_iff_eq.mp ht).symm)
        simp [h1, Bool.eq_false_iff.mpr hbeq]

/-- Claim C7: deduplicateResults keeps, for every normalized body,
exactly the first result of the (post-sort) input list that carries it,
dropping every later result whose normalized body was already seen. -/
theorem deduplicateResults_keeps_first (results : List ContentChunk) :
    deduplicateResults results = dedupKeepFirst results :=
  dedupGo_eq_keepFirstGo results [] [] (fun _ => rfl)

end RAG

namespace RAG

/-- Counterexample to C9 as stated: the inputs a and A have equal
normalized forms, yet their cache keys differ, because getCacheKey
hashes the raw text and preprocessing runs only after a cache miss. -/
theorem getCacheKey_normalization_counterexample :
    EmbeddingsService.preprocessText "a" = EmbeddingsService.preprocessText "A" ∧
    EmbeddingsService.getCacheKey "a" "m" ≠ EmbeddingsService.getCacheKey "A" "m" := by
  constructor
  · with_unfolding_all decide
  · with_unfolding_all decide

/-- Claim C9 as amended: the embedding cache key is a hash of the raw
text concatenated with the model identifier, so the key depends on the
pair only through that concatenation. -/
theorem getCacheKey_raw_concat (t1 m1 t2 m2 : String)
    (h : t1 ++ m1 = t2 ++ m2) :
    EmbeddingsService.getCacheKey t1 m1 = EmbeddingsService.getCacheKey t2 m2 := by
  unfold EmbeddingsService.getCacheKey
  rw [h]

/-- Witness for the amended C9: the pairs (ab, c) and (a, bc)
concatenate equally and receive the same cache key. -/
theorem getCacheKey_raw_concat_witness :
    ("ab" ++ "c" = "a" ++ "bc") ∧
    EmbeddingsService.getCacheKey "ab" "c" = EmbeddingsService.getCacheKey "a" "bc" :=
  ⟨rfl, getCacheKey_raw_concat "ab" "c" "a" "bc" rfl⟩

/-- Claim C5 fails on the code: the second chunk's title is prepended
to the whole accumulated string, landing before the first chunk's body
instead of immediately before its own chunk's kind-prefixed body. -/
theorem assembleContext_title_detached :
    (assembleContext DEFAULT_CONFIG [chunkAlpha, chunkBeta]).content =
      "My Project\nEXPERIENCE: alpha\n\nPROJECT: beta" ∧
    (assembleContext DEFAULT_CONFIG [chunkAlpha, chunkBeta]).content ≠
      "EXPERIENCE: alpha\n\nMy Project\nPROJECT: beta" := by
  constructor
  · with_unfolding_all decide
  · with_unfolding_all decide

/-- Counterexample to C2 as stated: two semantic results with distinct
keys but a shared type are both reported, yet the diversity penalty
(enabled by the default weight 0.1) rescales the second entry's score
away from its single-path weighted score 1 x 0.7. -/
theorem mergeAndRankResults_disjoint_counterexample :
    chunkKey semSkillsA ≠ chunkKey semSkillsB ∧
    (mergeAndRankResults DEFAULT_CONFIG [semSkillsA, semSkillsB] []).map
        ContentChunk.relevanceScore = [7/10, 693/1000] ∧
    (693/1000 : ℚ) ≠ semSkillsB.relevanceScore * DEFAULT_CONFIG.semanticWeight := by
  refine ⟨?_, ?_, ?_⟩
  · with_unfolding_all decide
  · with_unfolding_all decide
  · with_unfolding_all decide

/-- Counterexample to C6 as stated: with the chunk-count cap 2 and
exactly two small chunks, every input chunk is included and yet
truncated is reported true, because the flag is set as soon as the cap
is reached. -/
theorem assembleContext_truncated_counterexample :
    (assembleContext cfgCap2 chunksCap2).chunks = sortByScoreDesc chunksCap2 ∧
    (assembleContext cfgCap2 chunksCap2).chunks.length = chunksCap2.length ∧
    (assembleContext cfgCap2 chunksCap2).truncated = true := by
  refine ⟨?_, ?_, ?_⟩
  · with_unfolding_all decide
  · with_unfolding_all decide
  · with_unfolding_all decide

end RAG

namespace RAG

/-- Keys absent from an association list look up to none. -/
theorem lookup_eq_none_of_not_mem_keys {α : Type} :
    ∀ (m : List (String × α)) (k : String), k ∉ m.map Prod.fst →
      m.lookup k = none
  | [], _, _ => rfl
  | (a, b) :: t, k, h => by
    have hka : k ≠ a := by
      intro hk
      exact h (by simp [hk])
    simp only [List.lookup, beq_eq_false_iff_ne.mpr hka]
    exact lookup_eq_none_of_not_mem_keys t k (fun hm => h (by simp [hm]))

/-- Association-list lookup on a cons cell, phrased with a plain if. -/
theorem lookup_cons' {α : Type} (t x : String) (y : α)
    (rest : List (String × α)) :
    List.lookup t ((x, y) :: rest) =
      if t = x then some y else List.lookup t rest := by
  by_cases h : t = x
  · simp [List.lookup, h]
  · simp [List.lookup, beq_eq_false_iff_ne.mpr h, h]

/-- Lookup of a different key skips the in-place replacement of
mapSet. -/
theorem lookup_map_replace {α : Type} (k : String) (v : α) :
    ∀ (m : List (String × α)) (t : String), t ≠ k →
      (m.map (fun p => if p.1 = k then (k, v) else p)).lookup t = m.lookup t
  | [], _, _ => rfl
  | (a, b) :: rest, t, h => by
    by_cases hak : a = k
    · have hred : (if (a, b).1 = k then (k, v) else (a, b)) = (k, v) :=
        if_pos hak
      rw [List.map_cons, hred, lookup_cons', lookup_cons', if_neg h,
        if_neg (fun hta => h (hta.trans hak))]
      exact lookup_map_replace k v rest t h
    · have hred : (if (a, b).1 = k then (k, v) else (a, b)) = (a, b) :=
        if_neg hak
      rw [List.map_cons, hred, lookup_cons', lookup_cons']
      by_cases hta : t = a
      · rw [if_pos hta, if_pos hta]
      · rw [if_neg hta, if_neg hta]
        exact lookup_map_replace k v rest t h

/-- Lookup of a different key skips an appended binding. -/
theorem lookup_append_single_ne {α : Type} (k : String) (v : α) :
    ∀ (m : List (String × α)) (t : String), t ≠ k →
      ((m ++ [(k, v)]).lookup t) = m.lookup t
  | [], t, h => by
    rw [List.nil_append, lookup_cons', if_neg h]
  | (a, b) :: rest, t, h => by
    rw [List.cons_append, lookup_cons', lookup_cons']
    by_cases hta : t = a
    · rw [if_pos hta, if_pos hta]
    · rw [if_neg hta, if_neg hta]
      exact lookup_append_single_ne k v rest t h

/-- mapSet does not disturb lookups of other keys. -/
theorem lookup_mapSet_ne {α : Type} (m : List (String × α)) (k : String)
    (v : α) (t : String) (h : t ≠ k) :
    (mapSet m k v).lookup t = m.lookup t := by
  unfold mapSet
  split
  · exact lookup_map_replace k v m t h
  · exact lookup_append_single_ne k v m t h

/-- Inserting an element with the stable descending insertion is a
permutation of consing it. -/
theorem insertByScoreDesc_perm (a : ContentChunk) :
    ∀ l : List ContentChunk, (insertByScoreDesc a l).Perm (a :: l)
  | [] => List.Perm.refl _
  | b :: t => by
    simp only [insertByScoreDesc]
    split
    · exact List.Perm.refl _
    · exact ((insertByScoreDesc_perm a t).cons b).trans (List.Perm.swap _ _ _)

/-- The sorting pass of mergeAndRankResults permutes its input. -/
theorem sortByScoreDesc_perm (l : List ContentChunk) :
    (sortByScoreDesc l).Perm l := by
  suffices h : ∀ (l acc : List ContentChunk),
      (l.foldl (fun acc a => insertByScoreDesc a acc) acc).Perm (l ++ acc) by
    simpa using h l []
  intro l
  induction l with
  | nil => intro acc; simp
  | cons a t ih =>
    intro acc
    simp only [List.foldl]
    refine (ih _).trans ?_
    exact (List.Perm.append_left t (insertByScoreDesc_perm a acc)).trans
      List.perm_middle

/-- Sorting preserves length. -/
theorem sortByScoreDesc_length (l : List ContentChunk) :
    (sortByScoreDesc l).length = l.length :=
  (sortByScoreDesc_perm l).length_eq

end RAG

namespace RAG

/-- Folding semantic results whose keys are all fresh appends their
weighted copies in order. -/
theorem foldl_mergeSemStep_fresh (cfg : RAGConfig) :
    ∀ (sem : List ContentChunk) (m : List (String × ContentChunk)),
      (m.map Prod.fst ++ sem.map chunkKey).Nodup →
      sem.foldl (mergeSemStep cfg) m =
        m ++ sem.map (fun r => (chunkKey r,
          { r with relevanceScore := r.relevanceScore * cfg.semanticWeight }))
  | [], m, _ => by simp
  | r :: rest, m, h => by
    have hck : chunkKey r ∉ m.map Prod.fst := by
      intro hmem
      exact (List.nodup_append.mp h).2.2 hmem (by simp)
    have hstep : mergeSemStep cfg m r =
        m ++ [(chunkKey r,
          { r with relevanceScore := r.relevanceScore * cfg.semanticWeight })] := by
      unfold mergeSemStep
      exact mapSet_of_lookup_none _ _ _ (lookup_eq_none_of_not_mem_keys m _ hck)
    rw [List.foldl_cons, hstep,
      foldl_mergeSemStep_fresh cfg rest _ (by simpa [List.append_assoc] using h)]
    simp

/-- Folding keyword results whose keys are all fresh appends their
weighted copies in order. -/
theorem foldl_mergeKwStep_fresh (cfg : RAGConfig) :
    ∀ (kw : List ContentChunk) (m : List (String × ContentChunk)),
      (m.map Prod.fst ++ kw.map chunkKey).Nodup →
      kw.foldl (mergeKwStep cfg) m =
        m ++ kw.map (fun r => (chunkKey r,
          { r with relevanceScore := r.relevanceScore * cfg.keywordWeight }))
  | [], m, _ => by simp
  | r :: rest, m, h => by
    have hck : chunkKey r ∉ m.map Prod.fst := by
      intro hmem
      exact (List.nodup_append.mp h).2.2 hmem (by simp)
    have hstep : mergeKwStep cfg m r =
        m ++ [(chunkKey r,
          { r with relevanceScore := r.relevanceScore * cfg.keywordWeight })] := by
      unfold mergeKwStep
      rw [lookup_eq_none_of_not_mem_keys m _ hck]
    rw [List.foldl_cons, hstep,
      foldl_mergeKwStep_fresh cfg rest _ (by simpa [List.append_assoc] using h)]
    simp

/-- Diversity weighting is the identity when no type repeats and no
type is pre-counted. -/
theorem diversityGo_id (cfg : RAGConfig) :
    ∀ (l : List ContentChunk) (tc : List (String × Nat)),
      (l.map ContentChunk.type).Nodup →
      (∀ t ∈ l.map ContentChunk.type, tc.lookup t = none) →
      diversityGo cfg tc l = l
  | [], _, _, _ => rfl
  | r :: rest, tc, hnd, hlk => by
    have h0 : tc.lookup r.type = none := hlk _ (by simp)
    unfold diversityGo
    rw [h0]
    simp only [Option.getD_none, gt_iff_lt, lt_irrefl, if_false]
    refine congrArg (r :: ·) ?_
    refine diversityGo_id cfg rest _ ((List.nodup_cons.mp (by simpa using hnd)).2) ?_
    intro t ht
    have htr : t ≠ r.type := by
      intro he
      exact (List.nodup_cons.mp (by simpa using hnd)).1 (he ▸ ht)
    rw [lookup_mapSet_ne tc _ _ t htr]
    exact hlk t (by simp [ht])

/-- Claim C2 as amended: when no key occurs twice across the two result
lists and additionally no two entries share a type (so the diversity
penalty, enabled by default, never fires), the fused set is a
permutation of the two weighted input lists and its size is the sum of
their sizes, every entry keeping exactly its single-path weighted
score. -/
theorem mergeAndRankResults_disjoint (cfg : RAGConfig)
    (sem kw : List ContentChunk)
    (hkeys : ((sem ++ kw).map chunkKey).Nodup)
    (htypes : ((sem ++ kw).map ContentChunk.type).Nodup) :
    (mergeAndRankResults cfg sem kw).Perm
      (sem.map (fun r =>
        { r with relevanceScore := r.relevanceScore * cfg.semanticWeight }) ++
       kw.map (fun r =>
        { r with relevanceScore := r.relevanceScore * cfg.keywordWeight })) ∧
    (mergeAndRankResults cfg sem kw).length = sem.length + kw.length := by
  have hkeys' : (sem.map chunkKey ++ kw.map chunkKey).Nodup := by
    simpa using hkeys
  have h1 : sem.foldl (mergeSemStep cfg) [] =
      sem.map (fun r => (chunkKey r,
        { r with relevanceScore := r.relevanceScore * cfg.semanticWeight })) := by
    have := foldl_mergeSemStep_fresh cfg sem []
      (by simpa using (List.nodup_append.mp hkeys').1)
    simpa using this
  have hfst : (sem.map (fun r => (chunkKey r,
      { r with relevanceScore := r.relevanceScore * cfg.semanticWeight }))).map
        Prod.fst = sem.map chunkKey := by
    simp [List.map_map, Function.comp]
  have h2 : kw.foldl (mergeKwStep cfg)
      (sem.map (fun r => (chunkKey r,
        { r with relevanceScore := r.relevanceScore * cfg.semanticWeight }))) =
      sem.map (fun r => (chunkKey r,
        { r with relevanceScore := r.relevanceScore * cfg.semanticWeight })) ++
      kw.map (fun r => (chunkKey r,
        { r with relevanceScore := r.relevanceScore * cfg.keywordWeight })) := by
    refine foldl_mergeKwStep_fresh cfg kw _ ?_
    rw [hfst]
    exact hkeys'
  have hperm : (mergeAndRankResults cfg sem kw).Perm
      (sem.map (fun r =>
        { r with relevanceScore := r.relevanceScore * cfg.semanticWeight }) ++
       kw.map (fun r =>
        { r with relevanceScore := r.relevanceScore * cfg.keywordWeight })) := by
    unfold mergeAndRankResults
    dsimp only
    rw [h1, h2]
    have hsnd : ((sem.map (fun r => (chunkKey r,
        { r with relevanceScore := r.relevanceScore * cfg.semanticWeight }))) ++
        kw.map (fun r => (chunkKey r,
          { r with relevanceScore := r.relevanceScore * cfg.keywordWeight }))).map
            Prod.snd =
        sem.map (fun r =>
          { r with relevanceScore := r.relevanceScore * cfg.semanticWeight }) ++
        kw.map (fun r =>
          { r with relevanceScore := r.relevanceScore * cfg.keywordWeight }) := by
      simp only [List.map_append, List.map_map]
      rfl
    rw [hsnd]
    have hmapty : ((sem.map (fun r : ContentChunk =>
        { r with relevanceScore := r.relevanceScore * cfg.semanticWeight }) ++
        kw.map (fun r : ContentChunk =>
          { r with relevanceScore := r.relevanceScore * cfg.keywordWeight })).map
            ContentChunk.type) = (sem ++ kw).map ContentChunk.type := by
      simp only [List.map_append, List.map_map]
      rfl
    have htypes' : ((sem.map (fun r : ContentChunk =>
        { r with relevanceScore := r.relevanceScore * cfg.semanticWeight }) ++
        kw.map (fun r : ContentChunk =>
          { r with relevanceScore := r.relevanceScore * cfg.keywordWeight })).map
            ContentChunk.type).Nodup := by
      rw [hmapty]
      exact htypes
    split
    · rw [applyDiversityWeighting,
        diversityGo_id cfg _ [] htypes' (fun t _ => rfl)]
      exact sortByScoreDesc_perm _
    · exact sortByScoreDesc_perm _
  refine ⟨hperm, ?_⟩
  rw [hperm.length_eq]
  simp

/-- Witness for the amended C2: one semantic and one keyword result
with distinct keys and distinct types fuse into two entries with
exactly their single-path weighted scores. -/
theorem mergeAndRankResults_disjoint_witness :
    (([semTypeA] ++ [kwTypeB]).map chunkKey).Nodup ∧
    (([semTypeA] ++ [kwTypeB]).map ContentChunk.type).Nodup ∧
    (mergeAndRankResults DEFAULT_CONFIG [semTypeA] [kwTypeB]).Perm
      ([semTypeA].map (fun r =>
        { r with
          relevanceScore := r.relevanceScore * DEFAULT_CONFIG.semanticWeight }) ++
       [kwTypeB].map (fun r =>
        { r with
          relevanceScore := r.relevanceScore * DEFAULT_CONFIG.keywordWeight })) ∧
    (mergeAndRankResults DEFAULT_CONFIG [semTypeA] [kwTypeB]).length = 1 + 1 := by
  have hk : (([semTypeA] ++ [kwTypeB]).map chunkKey).Nodup := by
    with_unfolding_all decide
  have ht : (([semTypeA] ++ [kwTypeB]).map ContentChunk.type).Nodup := by
    with_unfolding_all decide
  obtain ⟨hp, hl⟩ :=
    mergeAndRankResults_disjoint DEFAULT_CONFIG [semTypeA] [kwTypeB] hk ht
  exact ⟨hk, ht, hp, by simpa using hl⟩

end RAG

namespace RAG

/-- The loop unfolds through assembleStep on a cons cell. -/
theorem assembleGo_cons (cfg : RAGConfig) (st : AssembleState)
    (chunk : ContentChunk) (rest : List ContentChunk) :
    assembleGo cfg st (chunk :: rest) =
      if st.totalTokens + estimateTokens chunk.content > cfg.maxContentLength then
        { st with truncated := true }
      else if (assembleStep cfg st chunk).usedChunks.length ≥
          cfg.maxContextChunks then
        { assembleStep cfg st chunk with truncated := true }
      else assembleGo cfg (assembleStep cfg st chunk) rest := rfl

/-- The inclusion step appends one chunk, adds its token estimate, and
leaves the truncation flag alone. -/
theorem assembleStep_fields (cfg : RAGConfig) (st : AssembleState)
    (chunk : ContentChunk) :
    (assembleStep cfg st chunk).usedChunks = st.usedChunks ++ [chunk] ∧
    (assembleStep cfg st chunk).totalTokens =
      st.totalTokens + estimateTokens chunk.content ∧
    (assembleStep cfg st chunk).truncated = st.truncated := by
  refine ⟨rfl, rfl, rfl⟩

/-- Full characterization of the assembler loop from a clean state with
spare chunk capacity: the included chunks are a prefix of the remaining
list; the token total is their cost sum and never exceeds the budget;
the count never exceeds the cap; the loop reports no truncation exactly
when it consumed everything while staying strictly below the cap; and
when a chunk is left out, the loop stopped because that chunk would
burst the budget or because the cap was reached. -/
theorem assembleGo_spec (cfg : RAGConfig) :
    ∀ (rem : List ContentChunk) (st : AssembleState),
      st.truncated = false →
      st.usedChunks.length < cfg.maxContextChunks →
      ∃ P t, rem = P ++ t ∧
        (assembleGo cfg st rem).usedChunks = st.usedChunks ++ P ∧
        (assembleGo cfg st rem).totalTokens = st.totalTokens + sumTokens P ∧
        (st.totalTokens ≤ cfg.maxContentLength →
          (assembleGo cfg st rem).totalTokens ≤ cfg.maxContentLength) ∧
        (assembleGo cfg st rem).usedChunks.length ≤ cfg.maxContextChunks ∧
        ((assembleGo cfg st rem).truncated = false ↔
          (t = [] ∧ st.usedChunks.length + P.length < cfg.maxContextChunks)) ∧
        (∀ c t', t = c :: t' →
          (assembleGo cfg st rem).totalTokens + estimateTokens c.content >
              cfg.maxContentLength ∨
            (assembleGo cfg st rem).usedChunks.length ≥ cfg.maxContextChunks)
  | [], st, htr, hcap => by
    refine ⟨[], [], rfl, ?_, ?_, ?_, ?_, ?_, ?_⟩
    · simp [assembleGo]
    · simp [assembleGo, sumTokens]
    · intro h; simpa [assembleGo] using h
    · simpa [assembleGo] using Nat.le_of_lt hcap
    · simp only [assembleGo, htr, List.length_nil]
      constructor
      · intro
        exact ⟨trivial, by omega⟩
      · intro
        trivial
    · intro c t' h
      exact absurd h (by simp)
  | chunk :: rest, st, htr, hcap => by
    obtain ⟨hsu, hst, hstr⟩ := assembleStep_fields cfg st chunk
    rw [assembleGo_cons]
    by_cases h1 :
        st.totalTokens + estimateTokens chunk.content > cfg.maxContentLength
    · rw [if_pos h1]
      refine ⟨[], chunk :: rest, rfl, ?_, ?_, ?_, ?_, ?_, ?_⟩
      · simp
      · simp [sumTokens]
      · intro h; exact h
      · exact Nat.le_of_lt hcap
      · simp
      · intro c t' h
        obtain ⟨hc, -⟩ := List.cons.injEq .. |>.mp h.symm
        left
        simpa [hc] using h1
    · rw [if_neg h1]
      by_cases h2 :
          (assembleStep cfg st chunk).usedChunks.length ≥ cfg.maxContextChunks
      · rw [if_pos h2]
        rw [hsu] at h2
        simp only [List.length_append, List.length_cons, List.length_nil] at h2
        refine ⟨[chunk], rest, rfl, ?_, ?_, ?_, ?_, ?_, ?_⟩
        · simpa using hsu
        · simpa [sumTokens] using hst
        · intro h
          show (assembleStep cfg st chunk).totalTokens ≤ cfg.maxContentLength
          omega
        · show (assembleStep cfg st chunk).usedChunks.length ≤
            cfg.maxContextChunks
          rw [hsu]
          simp only [List.length_append, List.length_cons, List.length_nil]
          omega
        · simp only [List.length_cons, List.length_nil]
          constructor
          · intro hfalse
            exact absurd hfalse (by simp)
          · rintro ⟨-, hlt⟩
            omega
        · intro c t' h
          right
          show (assembleStep cfg st chunk).usedChunks.length ≥
            cfg.maxContextChunks
          rw [hsu]
          simp only [List.length_append, List.length_cons, List.length_nil]
          omega
      · rw [if_neg h2]
        have hlen' :
            (assembleStep cfg st chunk).usedChunks.length <
              cfg.maxContextChunks := Nat.lt_of_not_le h2
        have htr' : (assembleStep cfg st chunk).truncated = false :=
          hstr.trans htr
        obtain ⟨P', t', hrem, hused, htot, hbud, hlen, hiff, hstop⟩ :=
          assembleGo_spec cfg rest (assembleStep cfg st chunk) htr' hlen'
        refine ⟨chunk :: P', t', by simp [hrem], ?_, ?_, ?_, ?_, ?_, ?_⟩
        · rw [hused, hsu]
          simp
        · rw [htot, hst]
          simp only [sumTokens, List.map_cons, List.sum_cons]
          omega
        · intro h
          refine hbud ?_
          rw [hst]
          omega
        · exact hlen
        · rw [hiff, hsu]
          simp only [List.length_append, List.length_cons, List.length_nil]
          constructor
          · rintro ⟨ht, hl⟩
            exact ⟨ht, by omega⟩
          · rintro ⟨ht, hl⟩
            exact ⟨ht, by omega⟩
        · exact hstop

end RAG

namespace RAG

/-- Claim C6 as amended: assembleContext reports truncated = false
exactly when every input chunk was included AND the included count
stayed strictly below maxContextChunks; reaching the cap sets the flag
even when nothing was left out. -/
theorem assembleContext_truncated_iff (cfg : RAGConfig)
    (chunks : List ContentChunk) (hcap : 1 ≤ cfg.maxContextChunks) :
    ((assembleContext cfg chunks).truncated = false ↔
      ((assembleContext cfg chunks).chunks.length = chunks.length ∧
        chunks.length < cfg.maxContextChunks)) := by
  obtain ⟨P, t, hrem, hused, htot, hbud, hlen, hiff, hstop⟩ :=
    assembleGo_spec cfg (sortByScoreDesc chunks)
      { totalTokens := 0, assembledContent := "", sources := [],
        usedChunks := [], truncated := false } rfl (by simpa using hcap)
  have hch : (assembleContext cfg chunks).chunks =
      (assembleGo cfg
        { totalTokens := 0, assembledContent := "", sources := [],
          usedChunks := [], truncated := false }
        (sortByScoreDesc chunks)).usedChunks := rfl
  have htrf : (assembleContext cfg chunks).truncated =
      (assembleGo cfg
        { totalTokens := 0, assembledContent := "", sources := [],
          usedChunks := [], truncated := false }
        (sortByScoreDesc chunks)).truncated := rfl
  have hPt : P.length + t.length = chunks.length := by
    rw [← sortByScoreDesc_length chunks, hrem]
    simp
  rw [htrf, hch, hused]
  simp only [List.nil_append]
  rw [hiff]
  simp only [List.length_nil, Nat.zero_add]
  constructor
  · rintro ⟨ht, hl⟩
    subst ht
    simp only [List.length_nil] at hPt
    exact ⟨by omega, by omega⟩
  · rintro ⟨hPl, hcl⟩
    have ht : t = [] := by
      have : t.length = 0 := by omega
      exact List.length_eq_zero.mp this
    exact ⟨ht, by omega⟩

/-- Witness for the amended C6: two small chunks under the default cap
of 10 are all included and the flag stays false. -/
theorem assembleContext_truncated_iff_witness :
    1 ≤ DEFAULT_CONFIG.maxContextChunks ∧
    (assembleContext DEFAULT_CONFIG chunksCap2).truncated = false := by
  refine ⟨by with_unfolding_all decide, ?_⟩
  refine (assembleContext_truncated_iff DEFAULT_CONFIG chunksCap2
    (by with_unfolding_all decide)).mpr ?_
  constructor
  · with_unfolding_all decide
  · with_unfolding_all decide

/-- Claim C4: the assembler re-sorts by score, greedily packs a prefix
whose token sum stays within the budget and whose count stays within
the cap, and when it leaves a chunk out it does so exactly at the first
chunk that would burst the budget or after filling the cap; on the
spec's concrete inputs, a budget of 100 with costs 30, 30, 30, 50 keeps
exactly the first three with truncated = true, and a cap of 2 with
three eligible chunks keeps exactly two with truncated = true. -/
theorem assembleContext_greedy :
    (∀ (cfg : RAGConfig) (chunks : List ContentChunk),
      1 ≤ cfg.maxContextChunks →
      ∃ t, sortByScoreDesc chunks = (assembleContext cfg chunks).chunks ++ t ∧
        (assembleContext cfg chunks).totalTokens =
          sumTokens (assembleContext cfg chunks).chunks ∧
        (assembleContext cfg chunks).totalTokens ≤ cfg.maxContentLength ∧
        (assembleContext cfg chunks).chunks.length ≤ cfg.maxContextChunks ∧
        (∀ c t', t = c :: t' →
          (assembleContext cfg chunks).truncated = true ∧
          ((assembleContext cfg chunks).totalTokens +
              estimateTokens c.content > cfg.maxContentLength ∨
            (assembleContext cfg chunks).chunks.length ≥
              cfg.maxContextChunks))) ∧
    ((assembleContext cfgBudget100 chunksBudget).chunks =
        [mkChunk 1 "t1" 120 4, mkChunk 2 "t2" 120 3, mkChunk 3 "t3" 120 2] ∧
      (assembleContext cfgBudget100 chunksBudget).truncated = true) ∧
    ((assembleContext cfgCap2 chunksCap3).chunks =
        [mkChunk 1 "t1" 4 4, mkChunk 2 "t2" 4 3] ∧
      (assembleContext cfgCap2 chunksCap3).truncated = true) := by
  refine ⟨?_, ⟨?_, ?_⟩, ⟨?_, ?_⟩⟩
  · intro cfg chunks hcap
    obtain ⟨P, t, hrem, hused, htot, hbud, hlen, hiff, hstop⟩ :=
      assembleGo_spec cfg (sortByScoreDesc chunks)
        { totalTokens := 0, assembledContent := "", sources := [],
          usedChunks := [], truncated := false } rfl (by simpa using hcap)
    have hch : (assembleContext cfg chunks).chunks =
        (assembleGo cfg
          { totalTokens := 0, assembledContent := "", sources := [],
            usedChunks := [], truncated := false }
          (sortByScoreDesc chunks)).usedChunks := rfl
    have htrf : (assembleContext cfg chunks).truncated =
        (assembleGo cfg
          { totalTokens := 0, assembledContent := "", sources := [],
            usedChunks := [], truncated := false }
          (sortByScoreDesc chunks)).truncated := rfl
    have htto : (assembleContext cfg chunks).totalTokens =
        (assembleGo cfg
          { totalTokens := 0, assembledContent := "", sources := [],
            usedChunks := [], truncated := false }
          (sortByScoreDesc chunks)).totalTokens := rfl
    refine ⟨t, ?_, ?_, ?_, ?_, ?_⟩
    · rw [hch, hused, hrem]
      simp
    · rw [htto, htot, hch, hused]
      simp
    · rw [htto]
      exact hbud (Nat.zero_le _)
    · rw [hch]
      exact hlen
    · intro c t' htt
      constructor
      · rw [htrf]
        rcases Bool.eq_false_or_eq_true
            ((assembleGo cfg
              { totalTokens := 0, assembledContent := "", sources := [],
                usedChunks := [], truncated := false }
              (sortByScoreDesc chunks)).truncated) with htv | hf
        · exact htv
        · obtain ⟨hteq, -⟩ := hiff.mp hf
          rw [hteq] at htt
          exact absurd htt (by simp)
      · rw [htto, hch]
        exact hstop c t' htt
  · with_unfolding_all decide
  · with_unfolding_all decide
  · with_unfolding_all decide
  · with_unfolding_all decide

end RAG

namespace RAG

/-- The synonym fold never removes an expansion. -/
theorem expandSynStep_fold_mono (query word : String) :
    ∀ (syns : List String) (es : List String) (x : String), x ∈ es →
      x ∈ syns.foldl (expandSynStep query word) es
  | [], _, _, hx => hx
  | syn :: rest, es, x, hx => by
    refine expandSynStep_fold_mono query word rest _ x ?_
    unfold expandSynStep
    dsimp only
    split
    · exact hx
    · exact List.mem_append_left _ hx

/-- The synonym fold preserves a fixed head. -/
theorem expandSynStep_fold_head (query word h : String) :
    ∀ (syns : List String) (es : List String),
      (∃ tl, es = h :: tl) →
      ∃ tl, syns.foldl (expandSynStep query word) es = h :: tl
  | [], _, hx => hx
  | syn :: rest, es, ⟨tl, htl⟩ => by
    refine expandSynStep_fold_head query word h rest _ ?_
    unfold expandSynStep
    dsimp only
    split
    · exact ⟨tl, htl⟩
    · exact ⟨tl ++ [wholeWordReplaceCI query word syn], by simp [htl]⟩

/-- The synonym fold preserves freedom from duplicates. -/
theorem expandSynStep_fold_nodup (query word : String) :
    ∀ (syns : List String) (es : List String), es.Nodup →
      (syns.foldl (expandSynStep query word) es).Nodup
  | [], _, hnd => hnd
  | syn :: rest, es, hnd => by
    refine expandSynStep_fold_nodup query word rest _ ?_
    unfold expandSynStep
    dsimp only
    split
    · exact hnd
    · rename_i hc
      have hnm : wholeWordReplaceCI query word syn ∉ es := by
        intro hmem
        simp [hmem] at hc
      simp [List.nodup_append, hnd, hnm]

/-- Every synonym's substitution is present after the synonym fold. -/
theorem expandSynStep_fold_complete (query word : String) :
    ∀ (syns : List String) (es : List String) (s : String), s ∈ syns →
      wholeWordReplaceCI query word s ∈
        syns.foldl (expandSynStep query word) es
  | [], _, s, hs => absurd hs (by simp)
  | syn :: rest, es, s, hs => by
    rcases List.mem_cons.mp hs with hhd | htl
    · subst hhd
      refine expandSynStep_fold_mono query word rest _ _ ?_
      unfold expandSynStep
      dsimp only
      split
      · rename_i hc
        simpa using hc
      · simp
    · exact expandSynStep_fold_complete query word rest _ s htl

/-- Everything the synonym fold adds is one of the substitutions. -/
theorem expandSynStep_fold_sound (query word : String) :
    ∀ (syns : List String) (es : List String) (x : String),
      x ∈ syns.foldl (expandSynStep query word) es →
      x ∈ es ∨ ∃ s ∈ syns, x = wholeWordReplaceCI query word s
  | [], _, _, hx => Or.inl hx
  | syn :: rest, es, x, hx => by
    rcases expandSynStep_fold_sound query word rest _ x hx with hes | ⟨s, hs, hrep⟩
    · unfold expandSynStep at hes
      dsimp only at hes
      split at hes
      · exact Or.inl hes
      · rcases List.mem_append.mp hes with h1 | h2
        · exact Or.inl h1
        · refine Or.inr ⟨syn, by simp, ?_⟩
          simpa using h2
    · exact Or.inr ⟨s, by simp [hs], hrep⟩

/-- The word fold never removes an expansion. -/
theorem expandWordStep_fold_mono (table : List (String × List String))
    (query : String) :
    ∀ (ws : List String) (acc : List String × List (String × List String))
      (x : String), x ∈ acc.1 →
      x ∈ (ws.foldl (expandWordStep table query) acc).1
  | [], _, _, hx => hx
  | w :: rest, acc, x, hx => by
    refine expandWordStep_fold_mono table query rest _ x ?_
    unfold expandWordStep
    split
    · exact expandSynStep_fold_mono query w _ _ x hx
    · exact hx

/-- The word fold preserves a fixed head of the expansion list. -/
theorem expandWordStep_fold_head (table : List (String × List String))
    (query h : String) :
    ∀ (ws : List String) (acc : List String × List (String × List String)),
      (∃ tl, acc.1 = h :: tl) →
      ∃ tl, (ws.foldl (expandWordStep table query) acc).1 = h :: tl
  | [], _, hx => hx
  | w :: rest, acc, hx => by
    refine expandWordStep_fold_head table query h rest _ ?_
    unfold expandWordStep
    split
    · exact expandSynStep_fold_head query w h _ _ hx
    · exact hx

/-- The word fold preserves freedom from duplicates. -/
theorem expandWordStep_fold_nodup (table : List (String × List String))
    (query : String) :
    ∀ (ws : List String) (acc : List String × List (String × List String)),
      acc.1.Nodup → (ws.foldl (expandWordStep table query) acc).1.Nodup
  | [], _, hnd => hnd
  | w :: rest, acc, hnd => by
    refine expandWordStep_fold_nodup table query rest _ ?_
    unfold expandWordStep
    split
    · exact expandSynStep_fold_nodup query w _ _ hnd
    · exact hnd

/-- Every substitution of a matched word ends up among the
expansions. -/
theorem expandWordStep_fold_complete (table : List (String × List String))
    (query : String) :
    ∀ (ws : List String) (acc : List String × List (String × List String))
      (w : String) (syns : List String) (s : String),
      w ∈ ws → table.lookup w = some syns → s ∈ syns →
      wholeWordReplaceCI query w s ∈
        (ws.foldl (expandWordStep table query) acc).1
  | [], _, _, _, _, hw, _, _ => absurd hw (by simp)
  | w0 :: rest, acc, w, syns, s, hw, hlk, hs => by
    rcases List.mem_cons.mp hw with hhd | htl
    · subst hhd
      refine expandWordStep_fold_mono table query rest _ _ ?_
      unfold expandWordStep
      rw [hlk]
      exact expandSynStep_fold_complete query w syns _ s hs
    · exact expandWordStep_fold_complete table query rest _ w syns s htl hlk hs

/-- Every expansion the word fold adds is the substitution of some
matched word. -/
theorem expandWordStep_fold_sound (table : List (String × List String))
    (query : String) (wsFull : List String) :
    ∀ (ws : List String) (acc : List String × List (String × List String)),
      (∀ w ∈ ws, w ∈ wsFull) →
      (∀ y ∈ acc.1, y = query ∨ ∃ w syns s, w ∈ wsFull ∧
        table.lookup w = some syns ∧ s ∈ syns ∧
        y = wholeWordReplaceCI query w s) →
      ∀ x ∈ (ws.foldl (expandWordStep table query) acc).1,
        x = query ∨ ∃ w syns s, w ∈ wsFull ∧
          table.lookup w = some syns ∧ s ∈ syns ∧
          x = wholeWordReplaceCI query w s
  | [], _, _, hacc, x, hx => hacc x hx
  | w0 :: rest, acc, hsub, hacc, x, hx => by
    refine expandWordStep_fold_sound table query wsFull rest _
      (fun w hw => hsub w (by simp [hw])) ?_ x hx
    intro y hy
    unfold expandWordStep at hy
    split at hy
    · rename_i syns0 hlk0
      rcases expandSynStep_fold_sound query w0 syns0 _ y hy with h1 | ⟨s, hs, hrep⟩
      · exact hacc y h1
      · exact Or.inr ⟨w0, syns0, s, hsub w0 (by simp), hlk0, hs, hrep.symm ▸ rfl⟩
    · exact hacc y hy

/-- Claim C8: expandQuery returns the original query first, never emits
a duplicate, contains the whole-word substitution for every
(matched word, synonym) pair, contains nothing else, and on the spec's
example table and query yields exactly the three stated expansions;
with the repository's own synonym table, the expansions of my skills
are the original plus one per synonym of skills. -/
theorem expandQuery_spec :
    (∀ (table : List (String × List String)) (query : String),
      (expandQueryWith table query).expandedQueries.head? = some query ∧
      (expandQueryWith table query).expandedQueries.Nodup ∧
      (∀ w syns s, w ∈ (query.toLower).split (·.isWhitespace) →
        table.lookup w = some syns → s ∈ syns →
        wholeWordReplaceCI query w s ∈
          (expandQueryWith table query).expandedQueries) ∧
      (∀ x ∈ (expandQueryWith table query).expandedQueries,
        x = query ∨ ∃ w syns s,
          w ∈ (query.toLower).split (·.isWhitespace) ∧
          table.lookup w = some syns ∧ s ∈ syns ∧
          x = wholeWordReplaceCI query w s)) ∧
    (expandQueryWith exTable "my skills").expandedQueries =
      ["my skills", "my abilities", "my expertise"] ∧
    (expandQuery "my skills").expandedQueries =
      ["my skills", "my abilities", "my expertise", "my competencies",
       "my technologies", "my proficiencies"] := by
  refine ⟨?_, ?_, ?_⟩
  · intro table query
    refine ⟨?_, ?_, ?_, ?_⟩
    · obtain ⟨tl, htl⟩ :=
        expandWordStep_fold_head table query query
          ((query.toLower).split (·.isWhitespace)) ([query], [])
          ⟨[], rfl⟩
      show (((query.toLower).split (·.isWhitespace)).foldl
        (expandWordStep table query) ([query], [])).1.head? = some query
      rw [htl]
      rfl
    · exact expandWordStep_fold_nodup table query _ _ (by simp)
    · intro w syns s hw hlk hs
      exact expandWordStep_fold_complete table query _ _ w syns s hw hlk hs
    · intro x hx
      refine expandWordStep_fold_sound table query
        ((query.toLower).split (·.isWhitespace)) _ ([query], [])
        (fun w hw => hw) ?_ x hx
      intro y hy
      left
      simpa using hy
  · with_unfolding_all decide
  · with_unfolding_all decide

end RAG

namespace RAG

/-- When the embedding collaborator fails on every variant, the whole
semantic path yields no chunks (each failure is caught per variant). -/
theorem performSemanticSearch_embed_fail (collab : Collaborators)
    (sq : SearchQuery) (queries : List String)
    (h : ∀ q, ∃ msg, collab.generateEmbedding q = .error msg) :
    performSemanticSearch collab sq queries = [] := by
  unfold performSemanticSearch
  induction queries with
  | nil => rfl
  | cons q rest ih =>
    obtain ⟨msg, hm⟩ := h q
    have hv : performSemanticSearchVariant collab sq q = [] := by
      unfold performSemanticSearchVariant
      rw [hm]
    simp only [List.map_cons, List.flatten_cons, hv, List.nil_append]
    exact ih

/-- Every chunk produced by the keyword path carries the keyword or
keyword_simple source. -/
theorem performKeywordSearch_sources (collab : Collaborators)
    (sq : SearchQuery) :
    ∀ (queries : List String) (acc : List ContentChunk),
      (∀ c ∈ acc, c.source = "keyword" ∨ c.source = "keyword_simple") →
      ∀ c ∈ queries.foldl (performKeywordSearchVariant collab sq) acc,
        c.source = "keyword" ∨ c.source = "keyword_simple"
  | [], _, hacc, c, hc => hacc c hc
  | q :: rest, acc, hacc, c, hc => by
    refine performKeywordSearch_sources collab sq rest _ ?_ c hc
    intro d hd
    unfold performKeywordSearchVariant at hd
    dsimp only at hd
    split at hd
    · exact hacc d hd
    · rename_i rows hrows
      split at hd
      · split at hd
        · rcases List.mem_append.mp hd with h1 | h2
          · exact hacc d h1
          · obtain ⟨row, -, hrow⟩ := List.mem_map.mp h2
            left
            rw [← hrow]
        · rcases List.mem_append.mp hd with h1 | h2
          · rcases List.mem_append.mp h1 with h3 | h4
            · exact hacc d h3
            · obtain ⟨row, -, hrow⟩ := List.mem_map.mp h4
              left
              rw [← hrow]
          · obtain ⟨row, -, hrow⟩ := List.mem_map.mp h2
            right
            rw [← hrow]
      · rcases List.mem_append.mp hd with h1 | h2
        · exact hacc d h1
        · obtain ⟨row, -, hrow⟩ := List.mem_map.mp h2
          left
          rw [← hrow]

/-- An entry of mapSet is the inserted binding or an original entry. -/
theorem mem_mapSet {α : Type} (m : List (String × α)) (k : String) (v : α) :
    ∀ p ∈ mapSet m k v, p = (k, v) ∨ p ∈ m := by
  intro p hp
  unfold mapSet at hp
  split at hp
  · obtain ⟨q, hq, hfq⟩ := List.mem_map.mp hp
    by_cases hqk : q.1 = k
    · rw [if_pos hqk] at hfq
      exact Or.inl hfq.symm
    · rw [if_neg hqk] at hfq
      exact Or.inr (hfq ▸ hq)
  · rcases List.mem_append.mp hp with h1 | h2
    · exact Or.inr h1
    · exact Or.inl (by simpa using h2)

/-- Merging keyword results into a map whose entries are hybrid or
keyword-sourced keeps every entry hybrid or keyword-sourced. -/
theorem foldl_mergeKwStep_sources (cfg : RAGConfig)
    (kwFull : List ContentChunk) :
    ∀ (ws : List ContentChunk) (m : List (String × ContentChunk)),
      (∀ w ∈ ws, w ∈ kwFull) →
      (∀ p ∈ m, p.2.source = "hybrid" ∨ ∃ k ∈ kwFull, p.2.source = k.source) →
      ∀ p ∈ ws.foldl (mergeKwStep cfg) m,
        p.2.source = "hybrid" ∨ ∃ k ∈ kwFull, p.2.source = k.source
  | [], _, _, hm, p, hp => hm p hp
  | w :: rest, m, hsub, hm, p, hp => by
    refine foldl_mergeKwStep_sources cfg kwFull rest _
      (fun x hx => hsub x (by simp [hx])) ?_ p hp
    intro q hq
    unfold mergeKwStep at hq
    split at hq
    · rcases mem_mapSet _ _ _ q hq with hins | hold
      · left
        rw [hins]
      · exact hm q hold
    · rcases List.mem_append.mp hq with h1 | h2
      · exact hm q h1
      · right
        refine ⟨w, hsub w (by simp), ?_⟩
        have : q = (chunkKey w,
            { w with relevanceScore := w.relevanceScore * cfg.keywordWeight }) := by
          simpa using h2
        rw [this]

/-- Diversity weighting only rescales scores: every output chunk keeps
the source of some input chunk. -/
theorem diversityGo_sources (cfg : RAGConfig) :
    ∀ (l : List ContentChunk) (tc : List (String × Nat)),
      ∀ c ∈ diversityGo cfg tc l, ∃ c0 ∈ l, c.source = c0.source
  | [], _, c, hc => absurd hc (by simp [diversityGo])
  | r :: rest, tc, c, hc => by
    unfold diversityGo at hc
    dsimp only at hc
    rcases List.mem_cons.mp hc with hhd | htl
    · refine ⟨r, by simp, ?_⟩
      rw [hhd]
      split
      · rfl
      · rfl
    · obtain ⟨c0, hc0, hsrc⟩ := diversityGo_sources cfg rest _ c htl
      exact ⟨c0, by simp [hc0], hsrc⟩

/-- Deduplication only drops chunks. -/
theorem mem_dedupGo :
    ∀ (l : List ContentChunk) (seen : List String),
      ∀ c ∈ dedupGo seen l, c ∈ l
  | [], _, c, hc => absurd hc (by simp [dedupGo])
  | r :: rest, seen, c, hc => by
    unfold dedupGo at hc
    dsimp only at hc
    split at hc
    · exact List.mem_cons_of_mem r (mem_dedupGo rest _ c hc)
    · rcases List.mem_cons.mp hc with hhd | htl
      · exact hhd ▸ List.mem_cons_self r rest
      · exact List.mem_cons_of_mem r (mem_dedupGo rest _ c htl)

/-- With no semantic results at all, every fused entry is hybrid or
carries the source of some keyword result. -/
theorem mergeAndRankResults_nil_sources (cfg : RAGConfig)
    (kw : List ContentChunk) :
    ∀ c ∈ mergeAndRankResults cfg [] kw,
      c.source = "hybrid" ∨ ∃ k ∈ kw, c.source = k.source := by
  intro c hc
  unfold mergeAndRankResults at hc
  dsimp only [List.foldl] at hc
  have hcomb : ∀ p ∈ kw.foldl (mergeKwStep cfg) [], p.2.source = "hybrid" ∨
      ∃ k ∈ kw, p.2.source = k.source :=
    foldl_mergeKwStep_sources cfg kw kw [] (fun w hw => hw)
      (fun p hp => absurd hp (by simp))
  have hc' := (sortByScoreDesc_perm _).mem_iff.mp hc
  have hresults : ∀ d ∈ (kw.foldl (mergeKwStep cfg) []).map Prod.snd,
      d.source = "hybrid" ∨ ∃ k ∈ kw, d.source = k.source := by
    intro d hd
    obtain ⟨p, hp, hpd⟩ := List.mem_map.mp hd
    exact hpd ▸ hcomb p hp
  split at hc'
  · obtain ⟨c0, hc0, hsrc⟩ :=
      diversityGo_sources cfg ((kw.foldl (mergeKwStep cfg) []).map Prod.snd)
        [] c (by simpa [applyDiversityWeighting] using hc')
    rcases hresults c0 hc0 with h1 | ⟨k, hk, h2⟩
    · exact Or.inl (hsrc.trans h1)
    · exact Or.inr ⟨k, hk, hsrc.trans h2⟩
  · exact hresults c hc'

end RAG

namespace RAG

/-- Claim C3 as amended: when the embedding collaborator throws for
every query variant while the rest of the pipeline proceeds (and the
cache misses), search still returns an outcome with semanticResults = 0
whose chunks are all keyword-derived (keyword, keyword_simple, or
hybrid accumulated from repeated keyword hits); whether any keyword
chunk actually appears depends on its weighted score clearing the
relevance threshold, which under the default weights 0.3 and threshold
0.6 no single-variant keyword hit can do. -/
theorem search_partial_failure_degrades (cfg : RAGConfig)
    (collab : Collaborators) (sq : SearchQuery)
    (hcache : collab.getCachedResult sq = none)
    (hembed : ∀ q, ∃ msg, collab.generateEmbedding q = .error msg) :
    (search cfg collab sq).semanticResults = 0 ∧
    (∀ c ∈ (search cfg collab sq).chunks,
      c.source = "keyword" ∨ c.source = "keyword_simple" ∨
        c.source = "hybrid") := by
  have hnone : (if cfg.cacheEnabled then collab.getCachedResult sq else none) =
      none := by
    split
    · exact hcache
    · rfl
  unfold search
  rw [hnone]
  dsimp only
  have hsem : (if sq.includeSemanticSearch then
      performSemanticSearch collab sq
        (if cfg.enableQueryExpansion then
          (expandQuery (preprocessQuery sq.query)).expandedQueries
        else [preprocessQuery sq.query])
    else []) = [] := by
    split
    · exact performSemanticSearch_embed_fail collab sq _ hembed
    · rfl
  rw [hsem]
  refine ⟨rfl, ?_⟩
  intro c hc
  have hmerge : ∀ d ∈ mergeAndRankResults cfg []
      (if sq.includeKeywordSearch then
        performKeywordSearch collab sq
          (if cfg.enableQueryExpansion then
            (expandQuery (preprocessQuery sq.query)).expandedQueries
          else [preprocessQuery sq.query])
      else []),
      d.source = "keyword" ∨ d.source = "keyword_simple" ∨
        d.source = "hybrid" := by
    intro d hd
    rcases mergeAndRankResults_nil_sources cfg _ d hd with h1 | ⟨k, hk, h2⟩
    · exact Or.inr (Or.inr h1)
    · have hksrc : k.source = "keyword" ∨ k.source = "keyword_simple" := by
        rcases hik : sq.includeKeywordSearch with hf | ht
        · rw [hik] at hk
          exact absurd (by simpa using hk) (fun h => h)
        · rw [hik] at hk
          simp only [if_true] at hk
          exact performKeywordSearch_sources collab sq _ []
            (fun x hx => absurd hx (by simp)) k hk
      rcases hksrc with hs1 | hs2
      · exact Or.inl (h2.trans hs1)
      · exact Or.inr (Or.inl (h2.trans hs2))
  have hfinal : ∀ d ∈ (if cfg.enableDeduplication then
      deduplicateResults (mergeAndRankResults cfg []
        (if sq.includeKeywordSearch then
          performKeywordSearch collab sq
            (if cfg.enableQueryExpansion then
              (expandQuery (preprocessQuery sq.query)).expandedQueries
            else [preprocessQuery sq.query])
        else []))
    else mergeAndRankResults cfg []
        (if sq.includeKeywordSearch then
          performKeywordSearch collab sq
            (if cfg.enableQueryExpansion then
              (expandQuery (preprocessQuery sq.query)).expandedQueries
            else [preprocessQuery sq.query])
        else [])),
      d.source = "keyword" ∨ d.source = "keyword_simple" ∨
        d.source = "hybrid" := by
    intro d hd
    split at hd
    · exact hmerge d (mem_dedupGo _ _ d hd)
    · exact hmerge d hd
  exact hfinal c (List.mem_of_mem_filter (List.take_subset _ _ hc))

end RAG

namespace RAG

/-- Counterexample to C3 as stated: with the default configuration, the
embedding call failing on every variant and the keyword query
succeeding with one fully matching row, search returns an outcome with
semanticResults = 0 and keywordResults = 1, yet its chunk list is
EMPTY — the keyword chunk's weighted score 1 x 0.3 falls below the
default relevance threshold 0.6, so no keyword-sourced chunk appears. -/
theorem search_partial_failure_counterexample :
    (∀ q, collabEmbedFail.generateEmbedding q =
      Except.error "embedding failure") ∧
    (search DEFAULT_CONFIG collabEmbedFail sqHello).semanticResults = 0 ∧
    (search DEFAULT_CONFIG collabEmbedFail sqHello).keywordResults = 1 ∧
    (search DEFAULT_CONFIG collabEmbedFail sqHello).chunks = [] := by
  refine ⟨fun _ => rfl, ?_, ?_, ?_⟩
  · with_unfolding_all decide
  · with_unfolding_all decide
  · with_unfolding_all decide

/-- Witness for the amended C3 at the concrete failing collaborators:
the hypotheses hold and the conclusion follows by the theorem. -/
theorem search_partial_failure_degrades_witness :
    collabEmbedFail.getCachedResult sqHello = none ∧
    (∀ q, ∃ msg, collabEmbedFail.generateEmbedding q = Except.error msg) ∧
    (search DEFAULT_CONFIG collabEmbedFail sqHello).semanticResults = 0 ∧
    (∀ c ∈ (search DEFAULT_CONFIG collabEmbedFail sqHello).chunks,
      c.source = "keyword" ∨ c.source = "keyword_simple" ∨
        c.source = "hybrid") := by
  have h := search_partial_failure_degrades DEFAULT_CONFIG collabEmbedFail
    sqHello rfl (fun q => ⟨"embedding failure", rfl⟩)
  exact ⟨rfl, fun q => ⟨"embedding failure", rfl⟩, h.1, h.2⟩

end RAG
